import Mathlib

/-!
Verification of the Savant lab measurement-and-decision core.

This file gives a shallow embedding of the measurement core of the repository
(`lab/savant_lab_runner.py` and `lab/baseline_compare.py`) and proves the
spec-level properties about it.  Python floats are modelled as exact rationals
(`ℚ`) except for the NDCG metric, whose `log2` discounts force real numbers
(`ℝ`).  Machine effects (HTTP, the filesystem, timing) are modelled as explicit
inputs: a request/response exchange becomes a value of `NetOutcome`, and a
stream of request outcomes becomes a function `ℕ → ℕ × ℚ` (status, elapsed
seconds), indexed by issuance order.
-/

namespace SavantLab

/-! ### Transport (`savant_lab_runner._safe_request`, `baseline_compare._post`) -/

/-- Outcome of one HTTP exchange as seen at the transport boundary: either a
response arrived (`ok` with status, parsed body and elapsed time), or the
requests library raised (`exn` with the exception text and elapsed time). -/
inductive NetOutcome (β : Type) where
  | ok (status : ℕ) (body : β) (elapsed : ℚ)
  | exn (msg : String) (elapsed : ℚ)

/-- Body as returned past the transport: the parsed response, or, for the
runner's transport on a network failure, the exception rendered as text
(`body = str(exc)` in `_safe_request`). -/
inductive TransportBody (β : Type) where
  | parsed (body : β)
  | failureText (msg : String)
deriving DecidableEq

/-- Embedding of `savant_lab_runner._safe_request`: total, never raises; a
network failure is converted into sentinel status `0`, the exception text as
body, and the elapsed time. -/
def safe_request {β : Type} (net : NetOutcome β) : ℕ × TransportBody β × ℚ :=
  match net with
  | .ok s b dt => (s, .parsed b, dt)
  | .exn m dt => (0, .failureText m, dt)

/-- Embedding of `baseline_compare._post`: it performs `SESSION.post` with no
exception handler, so a network failure propagates to the caller (modelled as
`Except.error`); only an arrived response is returned as a triple. -/
def comparatorPost {β : Type} (net : NetOutcome β) :
    Except String (ℕ × TransportBody β × ℚ) :=
  match net with
  | .ok s b dt => .ok (s, .parsed b, dt)
  | .exn m _ => .error m

/-! ### Metric primitives (`baseline_compare.mrr_at_k`) -/

/-- Loop of `mrr_at_k`: walk the (already truncated) ranking with a 1-based
position counter `i`; on the first id contained in `relevant` return `1/i`,
otherwise `0` at the end. -/
def mrrAux (relevant : List String) : ℕ → List String → ℚ
  | _, [] => 0
  | i, id :: rest => if id ∈ relevant then 1 / (i : ℚ) else mrrAux relevant (i + 1) rest

/-- Embedding of `baseline_compare.mrr_at_k`: reciprocal rank of the first
relevant id among the first `k` ranked ids, else `0`. -/
def mrr_at_k (ranked_ids : List String) (relevant : List String) (k : ℕ) : ℚ :=
  mrrAux relevant 1 (ranked_ids.take k)

/-! ### Reranking comparator (`baseline_compare.rank_with_savant_api`) -/

/-- One entry of the rerank response's `results` list; the `rank` field may be
absent (`none`), matching `x.get("rank", 1e9)` in the source. -/
structure RankEntry where
  id : String
  rank : Option ℚ
deriving DecidableEq

/-- Effective sort key used by the comparator: the entry's `rank`, or `1e9`
when the field is missing. -/
def effRank (e : RankEntry) : ℚ := e.rank.getD (10 ^ 9)

/-- Comparison relation underlying `sorted(results, key=lambda x: x.get("rank", 1e9))`. -/
def rankLE (a b : RankEntry) : Prop := effRank a ≤ effRank b

instance : DecidableRel rankLE := fun a b => inferInstanceAs (Decidable (effRank a ≤ effRank b))

instance : IsTotal RankEntry rankLE := ⟨fun a b => le_total (effRank a) (effRank b)⟩

instance : IsTrans RankEntry rankLE := ⟨fun _ _ _ => le_trans⟩

/-- Python's `sorted` is a stable sort by key; `List.insertionSort` is the
standard stable sort with the same semantics, so it models
`sorted(results, key=lambda x: x.get("rank", 1e9))` exactly. -/
def sortResults (results : List RankEntry) : List RankEntry :=
  List.insertionSort rankLE results

/-- Embedding of `baseline_compare.rank_with_savant_api`, applied to the
response triple of the `/v1/rerank` POST: a non-200 status raises
`RuntimeError` (modelled as `Except.error`); on 200 the ranking is the ids of
`results` sorted by `rank` ascending, returned with the elapsed time. -/
def rank_with_savant_api (resp : ℕ × List RankEntry × ℚ) :
    Except String (List String × ℚ) :=
  if resp.1 ≠ 200 then .error ("/v1/rerank failed: status=" ++ toString resp.1)
  else .ok ((sortResults resp.2.1).map RankEntry.id, resp.2.2)

/-- One line of the evaluation dataset (`baseline_compare.load_dataset`). -/
structure EvalRow where
  query : String
  candidates : List (String × String)
  relevant : List String

/-- Row loop of `baseline_compare.main`, abstracted over the per-row score
computed from (ranking, relevant set): rows are processed in order; the row's
rerank response is the `i`-th element of the response stream; a raised
`RuntimeError` aborts the whole loop and discards every partial result. -/
def comparatorRun {σ : Type} (score : List String → List String → σ)
    (responses : ℕ → ℕ × List RankEntry × ℚ) :
    List EvalRow → ℕ → Except String (List (σ × ℚ))
  | [], _ => .ok []
  | row :: rest, i =>
    match rank_with_savant_api (responses i) with
    | .error e => .error e
    | .ok (ranked, dt) =>
      match comparatorRun score responses rest (i + 1) with
      | .error e => .error e
      | .ok tail => .ok ((score ranked row.relevant, dt) :: tail)

/-! ### Metric primitives (`baseline_compare.ndcg_at_k`) -/

/-- Binary relevance of an id (`rel = 1.0 if _id in relevant else 0.0`); the
Python set `relevant` is modelled as a list in its iteration order. -/
def relOf (relevant : List String) (id : String) : ℝ :=
  if id ∈ relevant then 1 else 0

/-- Gain term of the DCG sum (`2**rel - 1`, real exponentiation). -/
noncomputable def gainOf (relevant : List String) (id : String) : ℝ :=
  (2 : ℝ) ^ relOf relevant id - 1

/-- Body of the `dcg` loop in `ndcg_at_k`: the element at 0-based offset `i`
stands at 1-based position `i + 1` and is discounted by `log2((i + 1) + 1)`. -/
noncomputable def dcgAux (relevant : List String) : ℕ → List String → ℝ
  | _, [] => 0
  | i, id :: rest =>
    gainOf relevant id / Real.logb 2 ((i : ℝ) + 2) + dcgAux relevant (i + 1) rest

/-- Inner `dcg` of `ndcg_at_k`: discounted gains over the first `k` ids. -/
noncomputable def dcg (relevant : List String) (k : ℕ) (ids : List String) : ℝ :=
  dcgAux relevant 0 (ids.take k)

/-- Ideal DCG of `ndcg_at_k`: `dcg` of the first `k` ids of the relevant set in
iteration order, or `1.0` when that list is empty. -/
noncomputable def idcgOf (relevant : List String) (k : ℕ) : ℝ :=
  if relevant.take k = [] then 1 else dcg relevant k (relevant.take k)

/-- Embedding of `baseline_compare.ndcg_at_k`. -/
noncomputable def ndcg_at_k (ranked_ids : List String) (relevant : List String) (k : ℕ) : ℝ :=
  dcg relevant k ranked_ids / idcgOf relevant k

/-- Discount weight of 0-based offset `i` in the DCG sum. -/
noncomputable def wgt (i : ℕ) : ℝ := 1 / Real.logb 2 ((i : ℝ) + 2)

/-- Sum of `c` consecutive discount weights starting at offset `i`: the DCG of
a run of `c` relevant ids placed at offsets `i, i+1, …`. -/
noncomputable def sumW : ℕ → ℕ → ℝ
  | _, 0 => 0
  | i, c + 1 => wgt i + sumW (i + 1) c

/-- Row loop of `baseline_compare.main` with the source's per-row scores: for
each row the API ranking is scored with `ndcg_at_k` and `mrr_at_k` at `k = 3`
against the row's relevant set, and the per-row rerank latency is kept. -/
noncomputable def comparatorMain (responses : ℕ → ℕ × List RankEntry × ℚ)
    (rows : List EvalRow) (i : ℕ) : Except String (List ((ℝ × ℚ) × ℚ)) :=
  comparatorRun (fun ranked rel => (ndcg_at_k ranked rel 3, mrr_at_k ranked rel 3))
    responses rows i

/-! ### Latency statistics (`numpy.quantile` and `savant_lab_runner.benchmark_evaluate`) -/

/-- Linear-interpolation quantile over an already sorted nonempty sequence, as
computed by `np.quantile(arr, q)` with the default method: with
`h = q * (n - 1)`, interpolate between `a[⌊h⌋]` and `a[⌊h⌋ + 1]` (clipped to
the last element). Garbage on the empty list; callers guard emptiness. -/
def npQuantileSorted (s : List ℚ) (q : ℚ) : ℚ :=
  let n : ℚ := (s.length : ℚ)
  let h : ℚ := q * (n - 1)
  let i : ℕ := (⌊h⌋).toNat
  let lo : ℚ := s.getD i 0
  let hi : ℚ := s.getD (i + 1) lo
  lo + (h - (i : ℚ)) * (hi - lo)

/-- Embedding of `np.quantile`: sorts its input and interpolates; `np.quantile`
raises on an empty array, modelled as `none`. -/
def npQuantile (xs : List ℚ) (q : ℚ) : Option ℚ :=
  match xs with
  | [] => none
  | _ :: _ => some (npQuantileSorted (xs.insertionSort (· ≤ ·)) q)

/-- Result object of `savant_lab_runner.benchmark_evaluate` (and the measured
benchmark carried inside the gate verdict). -/
structure BenchResult where
  N : ℕ
  errors : ℕ
  error_rate : ℚ
  p50_s : ℚ
  p95_s : ℚ
  p99_s : ℚ
  min_s : ℚ
  mean_s : ℚ
  max_s : ℚ
deriving DecidableEq

/-- Embedding of `savant_lab_runner.benchmark_evaluate`: issue `nBench`
requests (the `i`-th outcome being `responses i`), count non-200 statuses as
errors, and reduce all `nBench` elapsed times into a latency distribution.
With `nBench = 0` the numpy reductions (`np.quantile`, `arr.min()`) raise on
the empty array, so no result object is produced (`none`). -/
def benchmark_evaluate (nBench : ℕ) (responses : ℕ → ℕ × ℚ) : Option BenchResult :=
  let results := (List.range nBench).map responses
  let lat := results.map Prod.snd
  let errors := results.countP (fun m => decide (m.fst ≠ 200))
  match npQuantile lat (1 / 2), npQuantile lat (95 / 100), npQuantile lat (99 / 100),
      lat.min?, lat.max? with
  | some p50, some p95, some p99, some mn, some mx =>
    some { N := nBench, errors := errors,
           error_rate := (errors : ℚ) / max 1 (nBench : ℚ),
           p50_s := p50, p95_s := p95, p99_s := p99,
           min_s := mn, mean_s := lat.sum / (lat.length : ℚ), max_s := mx }
  | _, _, _, _, _ => none

/-- Result of the warmup/discard benchmark variant; per spec §4.4 its `N` is
the retained sample count. -/
structure BenchSpecResult where
  N : ℕ
  errors : ℕ
  error_rate : ℚ
  p50_s : ℚ
  p95_s : ℚ
  p99_s : ℚ
  min_s : ℚ
  mean_s : ℚ
  max_s : ℚ
deriving DecidableEq

/-- Modelled from the spec: the Benchmark Runner variant with warmup and
discard (spec §4.4, §9) is part of this repository but absent from `src/`,
where only the simpler no-warmup variant (`benchmark_evaluate`) appears.  Per
the spec: issue `W` warmup requests whose results are discarded entirely, then
`N` measured sequential requests; when `0 < D < N` drop the first `D` elapsed
times before computing the latency distribution, while errors and `error_rate`
are computed over all `N` measured attempts; with `N = 0` quantile computation
is undefined and the run fails fast (`none`). -/
def benchmarkRun (W N D : ℕ) (responses : ℕ → ℕ × ℚ) : Option BenchSpecResult :=
  let measured := (List.range N).map (fun i => responses (W + i))
  let lat := measured.map Prod.snd
  let errors := measured.countP (fun m => decide (m.fst ≠ 200))
  let retained := if 0 < D ∧ D < N then lat.drop D else lat
  match npQuantile retained (1 / 2), npQuantile retained (95 / 100),
      npQuantile retained (99 / 100), retained.min?, retained.max? with
  | some p50, some p95, some p99, some mn, some mx =>
    some { N := retained.length, errors := errors,
           error_rate := (errors : ℚ) / (N : ℚ),
           p50_s := p50, p95_s := p95, p99_s := p99,
           min_s := mn, mean_s := retained.sum / (retained.length : ℚ), max_s := mx }
  | _, _, _, _, _ => none

/-! ### Gate evaluator (`savant_lab_runner.gate`) -/

/-- Threshold configuration (spec §6): `p99_s_max` is optional. -/
structure Thresholds where
  p95_s_max : ℚ
  p99_s_max : Option ℚ
  error_rate_max : ℚ
  min_ok_rate_smoke : ℚ
deriving DecidableEq

/-- Summary fields of `smoke_tests` consumed by the gate. -/
structure SmokeResult where
  ok_rate : ℚ
  ok : ℕ
  total : ℕ
deriving DecidableEq

/-- Per-criterion PASS/FAIL breakdown reported by the `src/` gate. -/
structure GateAssessment where
  p95 : String
  error_rate : String
  smoke_ok_rate : String
deriving DecidableEq

/-- Gate verdict object of the `src/` gate (`base_url` and the wall-clock
`generated` timestamp are I/O strings with no decision content and are not
modelled). -/
structure Verdict where
  thresholds : Thresholds
  measured : BenchResult
  smoke_ok_rate : ℚ
  smoke_ok : ℕ
  smoke_total : ℕ
  gateRes : GateAssessment
  pass : Bool
  fallback_used : Bool
deriving DecidableEq

/-- Embedding of `savant_lab_runner.gate`: three per-criterion checks (p95,
error rate, smoke ok rate); `thresholds["p99_s_max"]`, even when present, is
never consulted by this variant. -/
def gate (t : Thresholds) (smoke : SmokeResult) (bench : BenchResult)
    (using_fallback : Bool) : Verdict :=
  let p95_ok := decide (bench.p95_s ≤ t.p95_s_max)
  let err_ok := decide (bench.error_rate ≤ t.error_rate_max)
  let smoke_ok := decide (smoke.ok_rate ≥ t.min_ok_rate_smoke)
  { thresholds := t, measured := bench,
    smoke_ok_rate := smoke.ok_rate, smoke_ok := smoke.ok, smoke_total := smoke.total,
    gateRes := { p95 := if p95_ok then "PASS" else "FAIL",
                 error_rate := if err_ok then "PASS" else "FAIL",
                 smoke_ok_rate := if smoke_ok then "PASS" else "FAIL" },
    pass := p95_ok && err_ok && smoke_ok,
    fallback_used := using_fallback }

/-- Per-criterion breakdown of the four-criterion gate variant. -/
structure GateAssessmentSpec where
  p95 : String
  p99 : String
  error_rate : String
  smoke_ok_rate : String
deriving DecidableEq

/-- Verdict of the four-criterion gate variant. -/
structure VerdictSpec where
  thresholds : Thresholds
  measured : BenchResult
  smoke_ok_rate : ℚ
  smoke_ok : ℕ
  smoke_total : ℕ
  gateRes : GateAssessmentSpec
  pass : Bool
  fallback_used : Bool
deriving DecidableEq

/-- Criterion 1 of the gate, standalone: p95 latency at or under its ceiling. -/
def checkP95 (t : Thresholds) (b : BenchResult) : Bool := decide (b.p95_s ≤ t.p95_s_max)

/-- Criterion 2 of the gate, standalone: p99 at or under its ceiling when that
ceiling is configured, always-pass otherwise. -/
def checkP99 (t : Thresholds) (b : BenchResult) : Bool :=
  match t.p99_s_max with
  | none => true
  | some m => decide (b.p99_s ≤ m)

/-- Criterion 3 of the gate, standalone: benchmark error rate at or under its
ceiling. -/
def checkErr (t : Thresholds) (b : BenchResult) : Bool :=
  decide (b.error_rate ≤ t.error_rate_max)

/-- Criterion 4 of the gate, standalone: smoke ok rate at or over its floor. -/
def checkSmoke (t : Thresholds) (s : SmokeResult) : Bool :=
  decide (s.ok_rate ≥ t.min_ok_rate_smoke)

/-- Modelled from the spec: the four-criterion Gate Evaluator variant with the
optional p99 ceiling (spec §4.5, §9) is part of this repository but absent from
`src/`, where the gate checks only p95, error rate and smoke ok rate.  Per the
spec: every criterion is evaluated and reported independently, the p99 check is
treated as always-pass when `p99_s_max` is not configured, and the overall pass
is the logical AND of all four. -/
def gateSpec (t : Thresholds) (smoke : SmokeResult) (bench : BenchResult)
    (using_fallback : Bool) : VerdictSpec :=
  let p95_ok := decide (bench.p95_s ≤ t.p95_s_max)
  let p99_ok := match t.p99_s_max with
    | none => true
    | some m => decide (bench.p99_s ≤ m)
  let err_ok := decide (bench.error_rate ≤ t.error_rate_max)
  let smoke_ok := decide (smoke.ok_rate ≥ t.min_ok_rate_smoke)
  { thresholds := t, measured := bench,
    smoke_ok_rate := smoke.ok_rate, smoke_ok := smoke.ok, smoke_total := smoke.total,
    gateRes := { p95 := if p95_ok then "PASS" else "FAIL",
                 p99 := if p99_ok then "PASS" else "FAIL",
                 error_rate := if err_ok then "PASS" else "FAIL",
                 smoke_ok_rate := if smoke_ok then "PASS" else "FAIL" },
    pass := p95_ok && p99_ok && err_ok && smoke_ok,
    fallback_used := using_fallback }

/-! ### Helper lemmas: DCG gains, discount weights, weight sums -/

theorem gainOf_eq (relevant : List String) (id : String) :
    gainOf relevant id = if id ∈ relevant then 1 else 0 := by
  unfold gainOf relOf
  split
  · rw [Real.rpow_one]; norm_num
  · rw [Real.rpow_zero]; norm_num

theorem logb_two_pos (i : ℕ) : 0 < Real.logb 2 ((i : ℝ) + 2) := by
  have h0 : (0 : ℝ) ≤ (i : ℝ) := Nat.cast_nonneg i
  exact Real.logb_pos one_lt_two (by linarith)

theorem wgt_pos (i : ℕ) : 0 < wgt i := one_div_pos.mpr (logb_two_pos i)

theorem wgt_succ_lt (i : ℕ) : wgt (i + 1) < wgt i := by
  unfold wgt
  have h0 : (0 : ℝ) ≤ (i : ℝ) := Nat.cast_nonneg i
  apply one_div_lt_one_div_of_lt (logb_two_pos i)
  have : ((i + 1 : ℕ) : ℝ) + 2 = (i : ℝ) + 3 := by push_cast; ring
  rw [this]
  exact Real.logb_lt_logb one_lt_two (by linarith) (by linarith)

theorem sumW_zero (i : ℕ) : sumW i 0 = 0 := rfl

theorem sumW_succ (i c : ℕ) : sumW i (c + 1) = wgt i + sumW (i + 1) c := rfl

theorem sumW_nonneg (i c : ℕ) : 0 ≤ sumW i c := by
  induction c generalizing i with
  | zero => exact le_refl 0
  | succ c ih => exact add_nonneg (wgt_pos i).le (ih (i + 1))

theorem sumW_pos (i : ℕ) {c : ℕ} (hc : 0 < c) : 0 < sumW i c := by
  cases c with
  | zero => omega
  | succ c => exact add_pos_of_pos_of_nonneg (wgt_pos i) (sumW_nonneg (i + 1) c)

theorem sumW_le_sumW (i : ℕ) {c c' : ℕ} (h : c ≤ c') : sumW i c ≤ sumW i c' := by
  induction c generalizing i c' with
  | zero => exact sumW_nonneg i c'
  | succ c ih =>
    cases c' with
    | zero => omega
    | succ c' =>
      rw [sumW_succ, sumW_succ]
      exact add_le_add_left (ih (i + 1) (by omega)) _

theorem sumW_shift_le (i c : ℕ) : sumW (i + 1) c ≤ sumW i c := by
  induction c generalizing i with
  | zero => exact le_refl 0
  | succ c ih =>
    rw [sumW_succ, sumW_succ]
    exact add_le_add (wgt_succ_lt i).le (ih (i + 1))

theorem sumW_shift_lt (i : ℕ) {c : ℕ} (hc : 0 < c) : sumW (i + 1) c < sumW i c := by
  cases c with
  | zero => omega
  | succ c =>
    rw [sumW_succ, sumW_succ]
    exact add_lt_add_of_lt_of_le (wgt_succ_lt i) (sumW_shift_le (i + 1) c)

theorem sumW_lt_of_lt (i : ℕ) {c c' : ℕ} (h : c < c') : sumW i c < sumW i c' := by
  induction c generalizing i c' with
  | zero => exact sumW_pos i h
  | succ c ih =>
    cases c' with
    | zero => omega
    | succ c' =>
      rw [sumW_succ, sumW_succ]
      exact add_lt_add_left (ih (i + 1) (by omega)) _

/-! ### Helper lemmas: the DCG loop -/

theorem dcgAux_nil (relevant : List String) (i : ℕ) : dcgAux relevant i [] = 0 := rfl

theorem dcgAux_cons (relevant : List String) (i : ℕ) (id : String) (l : List String) :
    dcgAux relevant i (id :: l) =
      (if id ∈ relevant then wgt i else 0) + dcgAux relevant (i + 1) l := by
  show gainOf relevant id / Real.logb 2 ((i : ℝ) + 2) + _ = _
  rw [gainOf_eq]
  unfold wgt
  split
  · rw [one_div]
  · rw [zero_div]

theorem dcgAux_nonneg (relevant : List String) :
    ∀ (l : List String) (i : ℕ), 0 ≤ dcgAux relevant i l := by
  intro l
  induction l with
  | nil => intro i; exact le_refl 0
  | cons id rest ih =>
    intro i
    rw [dcgAux_cons]
    refine add_nonneg ?_ (ih (i + 1))
    split
    · exact (wgt_pos i).le
    · exact le_refl 0

theorem dcgAux_all_mem (relevant : List String) :
    ∀ (l : List String) (i : ℕ), (∀ id ∈ l, id ∈ relevant) →
      dcgAux relevant i l = sumW i l.length := by
  intro l
  induction l with
  | nil => intro i _; rfl
  | cons id rest ih =>
    intro i h
    rw [dcgAux_cons, if_pos (h id (List.mem_cons_self id rest)), List.length_cons, sumW_succ,
      ih (i + 1) (fun x hx => h x (List.mem_cons_of_mem id hx))]

theorem dcgAux_all_not_mem (relevant : List String) :
    ∀ (l : List String) (i : ℕ), (∀ id ∈ l, id ∉ relevant) →
      dcgAux relevant i l = 0 := by
  intro l
  induction l with
  | nil => intro i _; rfl
  | cons id rest ih =>
    intro i h
    rw [dcgAux_cons, if_neg (h id (List.mem_cons_self id rest)),
      ih (i + 1) (fun x hx => h x (List.mem_cons_of_mem id hx)), add_zero]

theorem dcgAux_append (relevant : List String) :
    ∀ (l₁ l₂ : List String) (i : ℕ),
      dcgAux relevant i (l₁ ++ l₂) = dcgAux relevant i l₁ + dcgAux relevant (i + l₁.length) l₂ := by
  intro l₁
  induction l₁ with
  | nil => intro l₂ i; simp [dcgAux_nil]
  | cons id rest ih =>
    intro l₂ i
    rw [List.cons_append, dcgAux_cons, dcgAux_cons, ih l₂ (i + 1), add_assoc]
    have h2 : i + 1 + rest.length = i + (id :: rest).length := by
      simp only [List.length_cons]; omega
    rw [← h2]
    have h3 : i + 1 + rest.length = i + (1 + rest.length) := by omega
    rw [h3]
    exact (add_assoc _ _ _).symm

/-! ### Claim theorems: transport (C3) and empty relevant set (C8) -/

/-- C3 counterexample: the claim asserts that a network failure never
propagates as an exception past the transport boundary at every call site
including the Ranking Comparator's POSTs; but `baseline_compare._post`
installs no handler, so at the concrete network failure below the comparator's
POST propagates the exception (`Except.error`) instead of returning a
sentinel-status triple. -/
theorem comparator_post_raises_on_network_failure :
    comparatorPost (β := Unit) (NetOutcome.exn "connection error" 1) =
      Except.error "connection error" := rfl

/-- C3 (amended): for every request through the lab runner's transport
(`_safe_request`), a network failure never propagates as an exception: the
transport returns sentinel status 0, the failure description as body, and the
elapsed time, and a received response is passed through unchanged; the Ranking
Comparator's `_post`, by contrast, propagates a network failure as an
exception. -/
theorem transport_failure_contract {β : Type} (s : ℕ) (b : β) (dt : ℚ) (m : String) :
    safe_request (NetOutcome.ok s b dt) = (s, TransportBody.parsed b, dt)
    ∧ safe_request (β := β) (NetOutcome.exn m dt) = (0, TransportBody.failureText m, dt)
    ∧ comparatorPost (β := β) (NetOutcome.exn m dt) = Except.error m :=
  ⟨rfl, rfl, rfl⟩

/-- C8: with an empty relevant set, `ndcg_at_k` uses an ideal DCG of exactly
`1.0` (no division by zero) and returns exactly `0` for every ranking and
every `k`, since no id can be relevant. -/
theorem ndcg_empty_relevant (ranked : List String) (k : ℕ) :
    idcgOf [] k = 1 ∧ ndcg_at_k ranked [] k = 0 := by
  have hid : idcgOf [] k = 1 := by unfold idcgOf; simp
  refine ⟨hid, ?_⟩
  unfold ndcg_at_k dcg
  rw [hid, dcgAux_all_not_mem [] (ranked.take k) 0 (by simp)]
  simp

/-! ### Claim theorems: MRR (C5) -/

theorem mrrAux_eq_zero_iff (S : List String) :
    ∀ (l : List String) (i : ℕ), 1 ≤ i →
      (mrrAux S i l = 0 ↔ ∀ id ∈ l, id ∉ S) := by
  intro l
  induction l with
  | nil => intro i _; simp [mrrAux]
  | cons id rest ih =>
    intro i hi
    by_cases hm : id ∈ S
    · simp only [mrrAux, if_pos hm]
      constructor
      · intro h
        exfalso
        have hiq : ((i : ℚ)) ≠ 0 := Nat.cast_ne_zero.mpr (by omega)
        exact one_div_ne_zero hiq h
      · intro h
        exact absurd hm (h id (List.mem_cons_self id rest))
    · simp only [mrrAux, if_neg hm]
      rw [ih (i + 1) (by omega)]
      simp [List.forall_mem_cons, hm]

theorem mrrAux_first_hit (S : List String) :
    ∀ (l : List String) (i p : ℕ) (hp : p < l.length),
      l.get ⟨p, hp⟩ ∈ S →
      (∀ j (hj : j < p), l.get ⟨j, lt_trans hj hp⟩ ∉ S) →
      mrrAux S i l = 1 / ((i : ℚ) + (p : ℚ)) := by
  intro l
  induction l with
  | nil => intro i p hp; exact absurd hp (by simp)
  | cons id rest ih =>
    intro i p hp hget hbefore
    cases p with
    | zero =>
      have : id ∈ S := hget
      simp only [mrrAux, if_pos this]
      norm_num
    | succ p =>
      have hhead : id ∉ S := by
        have := hbefore 0 (Nat.succ_pos p)
        simpa using this
      simp only [mrrAux, if_neg hhead]
      have hp' : p < rest.length := by simpa using hp
      have hget' : rest.get ⟨p, hp'⟩ ∈ S := by simpa using hget
      have hbefore' : ∀ j (hj : j < p), rest.get ⟨j, lt_trans hj hp'⟩ ∉ S := by
        intro j hj
        have := hbefore (j + 1) (by omega)
        simpa using this
      rw [ih (i + 1) p hp' hget' hbefore']
      push_cast
      ring_nf

/-- C5: `mrr_at_k R S k` is `0` exactly when no element of `S` appears among
the first `k` positions of `R`; and whenever the (0-based) position `p` inside
the first `k` entries holds the first relevant id, the result is `1 / (p + 1)`
(reciprocal of the 1-indexed rank). -/
theorem mrr_at_k_spec (R S : List String) (k : ℕ) :
    (mrr_at_k R S k = 0 ↔ ∀ id ∈ R.take k, id ∉ S)
    ∧ (∀ p (hp : p < (R.take k).length),
        (R.take k).get ⟨p, hp⟩ ∈ S →
        (∀ j (hj : j < p), (R.take k).get ⟨j, lt_trans hj hp⟩ ∉ S) →
        mrr_at_k R S k = 1 / ((p : ℚ) + 1)) := by
  constructor
  · exact mrrAux_eq_zero_iff S (R.take k) 1 (le_refl 1)
  · intro p hp hget hbefore
    rw [mrr_at_k, mrrAux_first_hit S (R.take k) 1 p hp hget hbefore]
    norm_num
    rw [add_comm]

/-- C5 witness: at `R = ["a", "b"]`, `S = ["b"]`, `k = 3`, position `1` holds
the first relevant id, and the theorem yields `mrr = 1/2`; the zero case is
also exercised with `S = ["z"]`. -/
theorem mrr_at_k_spec_witness :
    (mrr_at_k ["a", "b"] ["z"] 3 = 0 ↔ ∀ id ∈ (["a", "b"] : List String).take 3, id ∉ (["z"] : List String))
    ∧ mrr_at_k ["a", "b"] ["b"] 3 = 1 / ((1 : ℚ) + 1) := by
  constructor
  · exact (mrr_at_k_spec ["a", "b"] ["z"] 3).1
  · exact (mrr_at_k_spec ["a", "b"] ["b"] 3).2 1 (by decide)
      (by decide) (by
        intro j hj
        cases j with
        | zero => exact (by decide : "a" ∉ (["b"] : List String))
        | succ n => omega)

/-! ### Claim theorems: gate evaluator (C1) -/

/-- C1 (spec-modelled gate variant): the overall pass is the logical AND of
the four per-criterion checks — p95, p99 (always-pass when not configured),
benchmark error rate, smoke ok rate — each criterion is evaluated and reported
independently of the others (the reported PASS/FAIL strings equal the
standalone per-criterion checks), and each check depends only on its own
threshold field, so changing any single threshold cannot flip an unrelated
criterion. -/
theorem gateSpec_pass_and_of_four (t : Thresholds) (s : SmokeResult) (b : BenchResult)
    (fb : Bool) :
    ((gateSpec t s b fb).pass = true ↔
      (b.p95_s ≤ t.p95_s_max ∧ (∀ m, t.p99_s_max = some m → b.p99_s ≤ m) ∧
        b.error_rate ≤ t.error_rate_max ∧ s.ok_rate ≥ t.min_ok_rate_smoke))
    ∧ (gateSpec t s b fb).pass = (checkP95 t b && checkP99 t b && checkErr t b && checkSmoke t s)
    ∧ (gateSpec t s b fb).gateRes.p95 = (if checkP95 t b then "PASS" else "FAIL")
    ∧ (gateSpec t s b fb).gateRes.p99 = (if checkP99 t b then "PASS" else "FAIL")
    ∧ (gateSpec t s b fb).gateRes.error_rate = (if checkErr t b then "PASS" else "FAIL")
    ∧ (gateSpec t s b fb).gateRes.smoke_ok_rate = (if checkSmoke t s then "PASS" else "FAIL")
    ∧ (∀ t₂ : Thresholds, t₂.p95_s_max = t.p95_s_max → checkP95 t₂ b = checkP95 t b)
    ∧ (∀ t₂ : Thresholds, t₂.p99_s_max = t.p99_s_max → checkP99 t₂ b = checkP99 t b)
    ∧ (∀ t₂ : Thresholds, t₂.error_rate_max = t.error_rate_max → checkErr t₂ b = checkErr t b)
    ∧ (∀ t₂ : Thresholds, t₂.min_ok_rate_smoke = t.min_ok_rate_smoke →
        checkSmoke t₂ s = checkSmoke t s) := by
  refine ⟨?_, rfl, rfl, rfl, rfl, rfl,
    fun t₂ h => by simp only [checkP95, h],
    fun t₂ h => by simp only [checkP99, h],
    fun t₂ h => by simp only [checkErr, h],
    fun t₂ h => by simp only [checkSmoke, h]⟩
  show (checkP95 t b && checkP99 t b && checkErr t b && checkSmoke t s) = true ↔ _
  cases hp : t.p99_s_max with
  | none =>
    simp [checkP95, checkP99, checkErr, checkSmoke, hp, and_assoc]
  | some m =>
    simp [checkP95, checkP99, checkErr, checkSmoke, hp, and_assoc]

/-- C1 witness: a concrete threshold set with `p99_s_max` configured, a smoke
result and a benchmark that satisfy all four criteria, fed through the
theorem's iff. -/
theorem gateSpec_pass_witness :
    (gateSpec { p95_s_max := 1, p99_s_max := some 2, error_rate_max := 1 / 100,
                min_ok_rate_smoke := 3 / 4 }
      { ok_rate := 1, ok := 4, total := 4 }
      { N := 50, errors := 0, error_rate := 0, p50_s := 1 / 2, p95_s := 3 / 4,
        p99_s := 1, min_s := 1 / 3, mean_s := 1 / 2, max_s := 2 }
      false).pass = true :=
  (gateSpec_pass_and_of_four _ _ _ _).1.mpr
    ⟨by norm_num, fun m hm => by simp at hm; rw [← hm]; norm_num, by norm_num, by norm_num⟩

/-! ### Claim theorems: benchmark fail-fast on zero samples (C9) -/

theorem npQuantile_isSome {xs : List ℚ} (h : xs ≠ []) (q : ℚ) :
    (npQuantile xs q).isSome = true := by
  cases xs with
  | nil => exact absurd rfl h
  | cons x rest => simp [npQuantile]

/-- C9: with a benchmark sample count of zero, the numpy reductions are
undefined on the empty sample array, so the Benchmark Runner produces no
result object at all (no silently zeroed statistics); for every positive
sample count it does produce a result. -/
theorem benchmark_evaluate_zero_fails :
    (∀ responses : ℕ → ℕ × ℚ, benchmark_evaluate 0 responses = none)
    ∧ (∀ (nBench : ℕ) (responses : ℕ → ℕ × ℚ), 0 < nBench →
        (benchmark_evaluate nBench responses).isSome = true) := by
  constructor
  · intro r
    rfl
  · intro n r hn
    have hne : ((List.range n).map r).map Prod.snd ≠ [] := by
      have : (((List.range n).map r).map Prod.snd).length = n := by simp
      intro hcon
      rw [hcon] at this
      simp at this
      omega
    obtain ⟨x, xs, hlat⟩ := List.exists_cons_of_ne_nil hne
    simp only [benchmark_evaluate, hlat]
    simp [npQuantile, List.min?, List.max?]

/-- C9 witness: the theorem applied at sample count `0` and at the concrete
positive sample count `2`. -/
theorem benchmark_evaluate_zero_fails_witness :
    benchmark_evaluate 0 (fun i => (200, (i : ℚ))) = none
    ∧ (benchmark_evaluate 2 (fun i => (200, (i : ℚ)))).isSome = true :=
  ⟨benchmark_evaluate_zero_fails.1 _,
    benchmark_evaluate_zero_fails.2 2 _ (by omega)⟩

/-! ### Claim theorems: rerank sorting and comparator abort (C6, C10) -/

theorem sortResults_pairwise (results : List RankEntry) :
    (sortResults results).Pairwise rankLE :=
  List.sorted_insertionSort rankLE results

theorem sortResults_perm (results : List RankEntry) :
    (sortResults results).Perm results :=
  List.perm_insertionSort rankLE results

theorem comparatorRun_error {σ : Type} (score : List String → List String → σ)
    (responses : ℕ → ℕ × List RankEntry × ℚ) :
    ∀ (rows : List EvalRow) (i₀ : ℕ),
      (∃ j, j < rows.length ∧ (responses (i₀ + j)).1 ≠ 200) →
      ∃ e, comparatorRun score responses rows i₀ = .error e := by
  intro rows
  induction rows with
  | nil =>
    intro i₀ h
    obtain ⟨j, hj, _⟩ := h
    simp at hj
  | cons row rest ih =>
    intro i₀ h
    obtain ⟨j, hj, hne⟩ := h
    cases j with
    | zero =>
      rw [Nat.add_zero] at hne
      exact ⟨"/v1/rerank failed: status=" ++ toString (responses i₀).1,
        by simp [comparatorRun, rank_with_savant_api, hne]⟩
    | succ j =>
      cases hhead : rank_with_savant_api (responses i₀) with
      | error e =>
        exact ⟨e, by simp [comparatorRun, hhead]⟩
      | ok pr =>
        obtain ⟨ranked, dt⟩ := pr
        have hne' : (responses (i₀ + 1 + j)).1 ≠ 200 := by
          have : i₀ + 1 + j = i₀ + (j + 1) := by omega
          rw [this]
          exact hne
        obtain ⟨e, herr⟩ := ih (i₀ + 1) ⟨j, by simpa using hj, hne'⟩
        exact ⟨e, by simp [comparatorRun, hhead, herr]⟩

theorem comparatorRun_ok {σ : Type} (score : List String → List String → σ)
    (responses : ℕ → ℕ × List RankEntry × ℚ) :
    ∀ (rows : List EvalRow) (i₀ : ℕ),
      (∀ j, j < rows.length → (responses (i₀ + j)).1 = 200) →
      ∃ l, comparatorRun score responses rows i₀ = .ok l ∧ l.length = rows.length := by
  intro rows
  induction rows with
  | nil => intro i₀ _; exact ⟨[], rfl, rfl⟩
  | cons row rest ih =>
    intro i₀ h
    have h0 : (responses i₀).1 = 200 := by
      have := h 0 (by simp)
      simpa using this
    have hrest : ∀ j, j < rest.length → (responses (i₀ + 1 + j)).1 = 200 := by
      intro j hj
      have : i₀ + 1 + j = i₀ + (j + 1) := by omega
      rw [this]
      exact h (j + 1) (by simpa using hj)
    obtain ⟨l, hl, hlen⟩ := ih (i₀ + 1) hrest
    refine ⟨(score ((sortResults (responses i₀).2.1).map RankEntry.id) row.relevant,
      (responses i₀).2.2) :: l, ?_, by simp [hlen]⟩
    simp [comparatorRun, rank_with_savant_api, h0, hl]

/-- C6: for every evaluation row, a non-200 rerank response raises a
`RuntimeError` which aborts the whole comparator run with an explicit error
(no row is silently skipped and no partial aggregate is produced: any failing
row makes the run an `error`, and a fully-200 run yields exactly one scored
entry per row); on a 200 response the ranking is the `results` ids sorted by
their `rank` field ascending (a permutation of the entries, pairwise ordered
by effective rank). -/
theorem rank_comparator_abort_and_sort (responses : ℕ → ℕ × List RankEntry × ℚ)
    (rows : List EvalRow) (i₀ : ℕ) :
    (∀ (results : List RankEntry) (dt : ℚ),
        rank_with_savant_api (200, results, dt) = .ok ((sortResults results).map RankEntry.id, dt)
        ∧ (sortResults results).Pairwise rankLE ∧ (sortResults results).Perm results)
    ∧ (∀ (st : ℕ) (body : List RankEntry) (dt : ℚ), st ≠ 200 →
        ∃ e, rank_with_savant_api (st, body, dt) = .error e)
    ∧ ((∃ j, j < rows.length ∧ (responses (i₀ + j)).1 ≠ 200) →
        ∃ e, comparatorMain responses rows i₀ = .error e)
    ∧ ((∀ j, j < rows.length → (responses (i₀ + j)).1 = 200) →
        ∃ l, comparatorMain responses rows i₀ = .ok l ∧ l.length = rows.length) := by
  refine ⟨?_, ?_, ?_, ?_⟩
  · intro results dt
    exact ⟨by simp [rank_with_savant_api], sortResults_pairwise results, sortResults_perm results⟩
  · intro st body dt hst
    exact ⟨"/v1/rerank failed: status=" ++ toString st, by simp [rank_with_savant_api, hst]⟩
  · exact comparatorRun_error _ responses rows i₀
  · exact comparatorRun_ok _ responses rows i₀

/-- C6 witness: one row whose rerank response carries the transport sentinel
status 0; the comparator run aborts with an error. -/
theorem rank_comparator_abort_witness :
    ∃ e, comparatorMain (fun _ => (0, ([], 0)))
      [{ query := "q", candidates := [], relevant := [] }] 0 = Except.error e :=
  (rank_comparator_abort_and_sort (fun _ => (0, ([], 0)))
    [{ query := "q", candidates := [], relevant := [] }] 0).2.2.1
    ⟨0, by simp, by decide⟩

/-- C10: a `results` entry lacking the `rank` field does not make the
comparator fail — the 200-response still yields a ranking — and such an entry
is keyed with effective rank `1e9`, so in the derived order every entry whose
explicit rank is smaller comes before it: an entry with `rank = none` is never
followed by an explicit rank below `1e9`. -/
theorem rerank_missing_rank_default (results : List RankEntry) (dt : ℚ) :
    (∃ ids, rank_with_savant_api (200, results, dt) = .ok (ids, dt))
    ∧ (∀ e ∈ results, e.rank = none → effRank e = 10 ^ 9)
    ∧ (∀ (i j : Fin (sortResults results).length), (i : ℕ) < (j : ℕ) →
        ((sortResults results).get i).rank = none →
        ∀ r, ((sortResults results).get j).rank = some r → (10 : ℚ) ^ 9 ≤ r) := by
  refine ⟨⟨(sortResults results).map RankEntry.id, by simp [rank_with_savant_api]⟩,
    fun e _ h => by simp [effRank, h], ?_⟩
  intro i j hij hnone r hsome
  have hp := List.pairwise_iff_get.mp (sortResults_pairwise results) i j
    (by exact Fin.lt_def.mpr hij)
  have h1 : effRank ((sortResults results).get i) = 10 ^ 9 := by
    unfold effRank; rw [hnone, Option.getD_none]
  have h2 : effRank ((sortResults results).get j) = r := by
    unfold effRank; rw [hsome, Option.getD_some]
  rw [rankLE, h1, h2] at hp
  exact hp

/-- C10 witness: a two-entry response where the first entry lacks `rank` and
the second carries rank `5`; the theorem applies at this concrete input. -/
theorem rerank_missing_rank_default_witness :
    (∃ ids, rank_with_savant_api
        (200, ([{ id := "a", rank := none }, { id := "b", rank := some 5 }] : List RankEntry), 3) =
      .ok (ids, 3))
    ∧ (∀ e ∈ ([{ id := "a", rank := none }, { id := "b", rank := some 5 }] : List RankEntry),
        e.rank = none → effRank e = 10 ^ 9)
    ∧ (∀ (i j : Fin (sortResults
          [{ id := "a", rank := none }, { id := "b", rank := some 5 }]).length),
        (i : ℕ) < (j : ℕ) →
        ((sortResults [{ id := "a", rank := none }, { id := "b", rank := some 5 }]).get i).rank
            = none →
        ∀ r, ((sortResults [{ id := "a", rank := none }, { id := "b", rank := some 5 }]).get j).rank
            = some r → (10 : ℚ) ^ 9 ≤ r) :=
  rerank_missing_rank_default [{ id := "a", rank := none }, { id := "b", rank := some 5 }] 3

/-! ### Claim theorems: warmup/discard benchmark (C2) -/

theorem benchmarkRun_congr (W N D : ℕ) (r₂ r : ℕ → ℕ × ℚ)
    (hstat : ∀ i, i < N → (r₂ (W + i)).1 = (r (W + i)).1)
    (hlat : ∀ i, D ≤ i → i < N → (r₂ (W + i)).2 = (r (W + i)).2)
    (hD : 0 < D) (hDN : D < N) :
    benchmarkRun W N D r₂ = benchmarkRun W N D r := by
  have herr : ((List.range N).map (fun i => r₂ (W + i))).countP (fun m => decide (m.fst ≠ 200))
      = ((List.range N).map (fun i => r (W + i))).countP (fun m => decide (m.fst ≠ 200)) := by
    rw [List.countP_map, List.countP_map]
    apply List.countP_congr
    intro i hi
    have hiN : i < N := List.mem_range.mp hi
    simp [Function.comp, hstat i hiN]
  have hret : (((List.range N).map (fun i => r₂ (W + i))).map Prod.snd).drop D
      = (((List.range N).map (fun i => r (W + i))).map Prod.snd).drop D := by
    apply List.ext_getElem
    · simp
    · intro p h₁ h₂
      rw [List.getElem_drop, List.getElem_drop]
      have hb : D + p < N := by
        simp only [List.length_drop, List.length_map, List.length_range] at h₁
        omega
      simp only [List.getElem_map, List.getElem_range]
      exact hlat (D + p) (by omega) hb
  simp only [benchmarkRun]
  rw [if_pos (And.intro hD hDN), if_pos (And.intro hD hDN), herr, hret]

theorem benchmarkRun_some (W N D : ℕ) (responses : ℕ → ℕ × ℚ) (hD : 0 < D) (hDN : D < N) :
    ∃ out, benchmarkRun W N D responses = some out
      ∧ out.N = ((((List.range N).map (fun i => responses (W + i))).map Prod.snd).drop D).length
      ∧ out.errors = ((List.range N).map (fun i => responses (W + i))).countP
          (fun m => decide (m.fst ≠ 200))
      ∧ out.error_rate = (out.errors : ℚ) / (N : ℚ) := by
  have hlen : ((((List.range N).map (fun i => responses (W + i))).map Prod.snd).drop D).length
      = N - D := by simp
  have hne : (((List.range N).map (fun i => responses (W + i))).map Prod.snd).drop D ≠ [] := by
    rw [← List.length_pos, hlen]
    omega
  obtain ⟨x, xs, hcons⟩ := List.exists_cons_of_ne_nil hne
  simp only [benchmarkRun]
  rw [if_pos (And.intro hD hDN), hcons]
  simp only [npQuantile, List.min?, List.max?]
  exact ⟨_, rfl, rfl, rfl, rfl⟩

/-- C2 (spec-modelled benchmark variant): with `0 < D < N`, (a) the `W` warmup
requests are discarded entirely — the result depends only on the outcomes of
the `N` measured requests at stream offsets `W, …, W + N - 1`; (b) the latency
distribution is computed over only the retained `N - D` samples — changing the
first `D` measured elapsed times (with statuses unchanged) leaves the whole
result unchanged; (c) the run produces a result whose retained sample count is
exactly `N - D`, whose `errors` counts non-200 statuses over all `N` measured
attempts, and whose `error_rate` has denominator `N` regardless of discard. -/
theorem benchmark_warmup_discard (W N D : ℕ) (responses : ℕ → ℕ × ℚ)
    (hD : 0 < D) (hDN : D < N) :
    (∀ responses₂ : ℕ → ℕ × ℚ, (∀ i, i < N → responses₂ (W + i) = responses (W + i)) →
      benchmarkRun W N D responses₂ = benchmarkRun W N D responses)
    ∧ (∀ responses₂ : ℕ → ℕ × ℚ,
        (∀ i, i < N → (responses₂ (W + i)).1 = (responses (W + i)).1) →
        (∀ i, D ≤ i → i < N → (responses₂ (W + i)).2 = (responses (W + i)).2) →
        benchmarkRun W N D responses₂ = benchmarkRun W N D responses)
    ∧ (∃ out, benchmarkRun W N D responses = some out
        ∧ out.N = N - D
        ∧ out.errors = ((List.range N).map (fun i => responses (W + i))).countP
            (fun m => decide (m.fst ≠ 200))
        ∧ out.error_rate = (out.errors : ℚ) / (N : ℚ)) := by
  refine ⟨?_, ?_, ?_⟩
  · intro r₂ hagree
    exact benchmarkRun_congr W N D r₂ responses
      (fun i hi => by rw [hagree i hi]) (fun i _ hi => by rw [hagree i hi]) hD hDN
  · intro r₂ hstat hlat
    exact benchmarkRun_congr W N D r₂ responses hstat hlat hD hDN
  · obtain ⟨out, hrun, hN, herr, hrate⟩ := benchmarkRun_some W N D responses hD hDN
    refine ⟨out, hrun, ?_, herr, hrate⟩
    rw [hN]
    simp

/-- C2 witness: warmup `2`, samples `3`, discard `1`, all statuses 200; the
run yields a result whose retained count is `2`, with zero errors over the
full `3` attempts. -/
theorem benchmark_warmup_discard_witness :
    ∃ out, benchmarkRun 2 3 1 (fun i => (200, (i : ℚ))) = some out
      ∧ out.N = 3 - 1
      ∧ out.errors = ((List.range 3).map (fun i => (fun i => ((200 : ℕ), (i : ℚ))) (2 + i))).countP
          (fun m => decide (m.fst ≠ 200))
      ∧ out.error_rate = (out.errors : ℚ) / ((3 : ℕ) : ℚ) :=
  (benchmark_warmup_discard 2 3 1 (fun i => (200, (i : ℚ))) (by omega) (by omega)).2.2

/-! ### Helper lemmas: NDCG upper bound and equality analysis (towards C4) -/

theorem countP_le_length_of_nodup (relevant : List String) {l : List String} (hl : l.Nodup) :
    l.countP (fun id => decide (id ∈ relevant)) ≤ relevant.length := by
  rw [List.countP_eq_length_filter]
  have hnd : (l.filter (fun id => decide (id ∈ relevant))).Nodup := hl.filter _
  have hsub : (l.filter (fun id => decide (id ∈ relevant))) ⊆ relevant := by
    intro x hx
    have := List.of_mem_filter hx
    simpa using this
  exact (hnd.subperm hsub).length_le

theorem dcgAux_le_sumW (relevant : List String) :
    ∀ (l : List String) (i b : ℕ),
      l.countP (fun id => decide (id ∈ relevant)) ≤ b →
      dcgAux relevant i l ≤ sumW i (min b l.length) := by
  intro l
  induction l with
  | nil =>
    intro i b _
    simp [dcgAux_nil, sumW_zero]
  | cons id rest ih =>
    intro i b hcount
    simp only [List.length_cons]
    rw [dcgAux_cons]
    by_cases hm : id ∈ relevant
    · have hc : rest.countP (fun x => decide (x ∈ relevant)) + 1 ≤ b := by
        rw [List.countP_cons] at hcount
        simpa [hm] using hcount
      have hb : 1 ≤ b := by omega
      have hIH := ih (i + 1) (b - 1) (by omega)
      have hmin : min (b - 1) rest.length + 1 = min b (rest.length + 1) := by omega
      rw [if_pos hm]
      calc wgt i + dcgAux relevant (i + 1) rest
          ≤ wgt i + sumW (i + 1) (min (b - 1) rest.length) := by linarith
        _ = sumW i (min (b - 1) rest.length + 1) := (sumW_succ _ _).symm
        _ = sumW i (min b (rest.length + 1)) := by rw [hmin]
    · rw [if_neg hm, zero_add]
      have hc : rest.countP (fun x => decide (x ∈ relevant)) ≤ b := by
        rw [List.countP_cons] at hcount
        simpa [hm] using hcount
      calc dcgAux relevant (i + 1) rest
          ≤ sumW (i + 1) (min b rest.length) := ih (i + 1) b hc
        _ ≤ sumW i (min b rest.length) := sumW_shift_le _ _
        _ ≤ sumW i (min b (rest.length + 1)) := sumW_le_sumW _ (by omega)

theorem dcgAux_eq_imp_mem (relevant : List String) :
    ∀ (l : List String) (i b : ℕ), l.Nodup →
      l.countP (fun id => decide (id ∈ relevant)) ≤ b →
      dcgAux relevant i l = sumW i (min b l.length) →
      ∀ j (hj : j < min b l.length),
        l.get ⟨j, lt_of_lt_of_le hj (min_le_right b l.length)⟩ ∈ relevant := by
  intro l
  induction l with
  | nil =>
    intro i b _ _ _ j hj
    simp at hj
  | cons id rest ih =>
    intro i b hnd hcount heq j hj
    simp only [List.length_cons] at heq hj ⊢
    by_cases hm : id ∈ relevant
    · have hc : rest.countP (fun x => decide (x ∈ relevant)) + 1 ≤ b := by
        rw [List.countP_cons] at hcount
        simpa [hm] using hcount
      have hb : 1 ≤ b := by omega
      have hmin : min b (rest.length + 1) = min (b - 1) rest.length + 1 := by omega
      rw [dcgAux_cons, if_pos hm, hmin, sumW_succ] at heq
      have heq' : dcgAux relevant (i + 1) rest = sumW (i + 1) (min (b - 1) rest.length) := by
        linarith
      cases j with
      | zero => exact hm
      | succ j =>
        have hj' : j < min (b - 1) rest.length := by
          rw [hmin] at hj
          omega
        exact ih (i + 1) (b - 1) hnd.of_cons (by omega) heq' j hj'
    · have hc : rest.countP (fun x => decide (x ∈ relevant)) ≤ b := by
        rw [List.countP_cons] at hcount
        simpa [hm] using hcount
      have hub := dcgAux_le_sumW relevant rest (i + 1) b hc
      have hpos : 0 < min b (rest.length + 1) := lt_of_le_of_lt (Nat.zero_le j) hj
      have hle : min b rest.length ≤ min b (rest.length + 1) := by omega
      have hlt : sumW (i + 1) (min b rest.length) < sumW i (min b (rest.length + 1)) := by
        rcases Nat.lt_or_ge (min b rest.length) (min b (rest.length + 1)) with hlt' | hge
        · exact lt_of_le_of_lt (sumW_shift_le _ _) (sumW_lt_of_lt _ hlt')
        · have hceq : min b rest.length = min b (rest.length + 1) := by omega
          rw [hceq]
          exact sumW_shift_lt i hpos
      have hstrict : dcgAux relevant i (id :: rest) < sumW i (min b (rest.length + 1)) := by
        rw [dcgAux_cons, if_neg hm, zero_add]
        exact lt_of_le_of_lt hub hlt
      exact absurd heq (ne_of_lt hstrict)

theorem dcgAux_prefix_relevant (relevant : List String) (l : List String) (i m : ℕ)
    (hm : m ≤ l.length)
    (hpre : ∀ j (hj : j < m), l.get ⟨j, lt_of_lt_of_le hj hm⟩ ∈ relevant)
    (hsuf : ∀ id ∈ l.drop m, id ∉ relevant) :
    dcgAux relevant i l = sumW i m := by
  conv_lhs => rw [← List.take_append_drop m l]
  rw [dcgAux_append]
  have h1 : ∀ id ∈ l.take m, id ∈ relevant := by
    intro id hid
    obtain ⟨n, hget⟩ := List.mem_iff_get.mp hid
    have hn : (n : ℕ) < m := by
      have := n.isLt
      simp only [List.length_take] at this
      omega
    have : (l.take m).get n = l.get ⟨n, lt_of_lt_of_le hn hm⟩ := by
      simp [List.get_eq_getElem, List.getElem_take]
    rw [← hget, this]
    exact hpre n hn
  rw [dcgAux_all_mem relevant (l.take m) i h1,
    dcgAux_all_not_mem relevant (l.drop m) _ hsuf, add_zero]
  have hlen : (l.take m).length = m := by
    simp [List.length_take]
    omega
  rw [hlen]

/-! ### Claim theorems: NDCG bounds and optimality (C4) -/

/-- C4 counterexample: the claim asserts `ndcg_at_k(R, S, k) ∈ [0, 1]` for
every ranking and non-empty relevant set, but a ranking that repeats a
relevant id collects the gain at every occurrence while the ideal DCG counts
it once: at `R = ["b", "b"]`, `S = {"b"}`, `k = 3` the value exceeds `1`. -/
theorem ndcg_gt_one_on_duplicate_ranking :
    1 < ndcg_at_k ["b", "b"] ["b"] 3 := by
  have hw0 : wgt 0 = 1 := by
    unfold wgt
    norm_num
  have hid : idcgOf ["b"] 3 = 1 := by
    unfold idcgOf
    rw [if_neg (by decide)]
    unfold dcg
    rw [show ((["b"] : List String).take 3).take 3 = ["b"] from rfl]
    rw [dcgAux_cons, if_pos (by decide), dcgAux_nil, add_zero, hw0]
  unfold ndcg_at_k
  rw [hid, div_one]
  unfold dcg
  rw [show (["b", "b"] : List String).take 3 = ["b", "b"] from rfl]
  rw [dcgAux_cons, if_pos (by decide), dcgAux_cons, if_pos (by decide), dcgAux_nil,
    add_zero, hw0]
  have hw1 : 0 < wgt 1 := wgt_pos 1
  linarith

/-- C4 (amended): for every duplicate-free ranking `R`, non-empty
duplicate-free relevant set `S` (a Python set, listed in iteration order) and
`k ≥ 1`: `ndcg_at_k R S k ∈ [0, 1]`, and it equals `1.0` exactly when `R` has
at least `min(k, |S|)` entries and its first `min(k, |S|)` entries are all
relevant (an optimal ordering of `S`).  The duplicate-freeness of `R` is
forced by the counterexample: a ranking repeating a relevant id pushes the
value above `1`. -/
theorem ndcg_at_k_bounds (ranked relevant : List String) (k : ℕ)
    (hk : 1 ≤ k) (hne : relevant ≠ []) (hrnd : ranked.Nodup) :
    0 ≤ ndcg_at_k ranked relevant k ∧ ndcg_at_k ranked relevant k ≤ 1 ∧
    (ndcg_at_k ranked relevant k = 1 ↔
      (min k relevant.length ≤ ranked.length ∧
        ∀ j, j < min k relevant.length → ranked.getD j "" ∈ relevant)) := by
  have hrelpos : 0 < relevant.length := List.length_pos.mpr hne
  have hm1 : 1 ≤ min k relevant.length := by omega
  have htknn : relevant.take k ≠ [] := by
    rw [← List.length_pos, List.length_take]
    omega
  have hidcg : idcgOf relevant k = sumW 0 (min k relevant.length) := by
    unfold idcgOf
    rw [if_neg htknn]
    unfold dcg
    rw [List.take_take, min_self,
      dcgAux_all_mem relevant _ 0 (fun id hid => List.mem_of_mem_take hid),
      List.length_take]
  have hidcg_pos : 0 < idcgOf relevant k := by
    rw [hidcg]
    exact sumW_pos 0 hm1
  have htnd : (ranked.take k).Nodup := hrnd.sublist (List.take_sublist k ranked)
  have hcount : (ranked.take k).countP (fun id => decide (id ∈ relevant)) ≤ relevant.length :=
    countP_le_length_of_nodup relevant htnd
  have hub := dcgAux_le_sumW relevant (ranked.take k) 0 relevant.length hcount
  have htlen : (ranked.take k).length = min k ranked.length := List.length_take k ranked
  have hminle : min relevant.length (ranked.take k).length ≤ min k relevant.length := by
    rw [htlen]
    omega
  have hdcg_le : dcg relevant k ranked ≤ sumW 0 (min k relevant.length) :=
    le_trans hub (sumW_le_sumW 0 hminle)
  have hdcg_nonneg : 0 ≤ dcg relevant k ranked := dcgAux_nonneg relevant (ranked.take k) 0
  refine ⟨div_nonneg hdcg_nonneg hidcg_pos.le, ?_, ?_⟩
  · unfold ndcg_at_k
    rw [hidcg]
    rw [hidcg] at hidcg_pos
    exact (div_le_one hidcg_pos).mpr hdcg_le
  · constructor
    · intro h1
      unfold ndcg_at_k at h1
      rw [hidcg] at h1
      have hdceq : dcg relevant k ranked = sumW 0 (min k relevant.length) :=
        (div_eq_one_iff_eq (ne_of_gt (sumW_pos 0 hm1))).mp h1
      have hmt : min k relevant.length ≤ (ranked.take k).length := by
        by_contra hcon
        push_neg at hcon
        have hless : min relevant.length (ranked.take k).length < min k relevant.length := by
          omega
        have hlt := sumW_lt_of_lt 0 hless
        have hfull : dcg relevant k ranked < sumW 0 (min k relevant.length) :=
          lt_of_le_of_lt hub hlt
        rw [hdceq] at hfull
        exact lt_irrefl _ hfull
      have hc2 : min relevant.length (ranked.take k).length = min k relevant.length := by
        rw [htlen] at hmt ⊢
        omega
      have hmem := dcgAux_eq_imp_mem relevant (ranked.take k) 0 relevant.length htnd hcount
        (by rw [hc2]; exact hdceq)
      constructor
      · rw [htlen] at hmt
        omega
      · intro j hj
        have hjt : j < min relevant.length (ranked.take k).length := by
          rw [hc2]
          exact hj
        have hjr : j < ranked.length := by
          rw [htlen] at hjt
          omega
        have hjk : j < (ranked.take k).length := lt_of_lt_of_le hjt (min_le_right _ _)
        have hgd : ranked.getD j "" = (ranked.take k).get
            ⟨j, lt_of_lt_of_le hjt (min_le_right _ _)⟩ := by
          rw [List.getD_eq_getElem ranked "" hjr]
          simp [List.get_eq_getElem, List.getElem_take]
        rw [hgd]
        exact hmem j hjt
    · rintro ⟨hmlen, hpre⟩
      have hmt : min k relevant.length ≤ (ranked.take k).length := by
        rw [htlen]
        omega
      have hpret : ∀ j (hj : j < min k relevant.length),
          (ranked.take k).get ⟨j, lt_of_lt_of_le hj hmt⟩ ∈ relevant := by
        intro j hj
        have hjr : j < ranked.length := by omega
        have hgd : (ranked.take k).get ⟨j, lt_of_lt_of_le hj hmt⟩ = ranked.getD j "" := by
          rw [List.getD_eq_getElem ranked "" hjr]
          simp [List.get_eq_getElem, List.getElem_take]
        rw [hgd]
        exact hpre j hj
      have hsuf : ∀ id ∈ (ranked.take k).drop (min k relevant.length), id ∉ relevant := by
        by_cases hcase : relevant.length ≤ k
        · have hmrel : min k relevant.length = relevant.length := by omega
          have hfmnd : ((ranked.take k).take (min k relevant.length)).Nodup :=
            htnd.sublist (List.take_sublist _ _)
          have hfmsub : ((ranked.take k).take (min k relevant.length)) ⊆ relevant := by
            intro id hid
            obtain ⟨n, hget⟩ := List.mem_iff_get.mp hid
            have hn : (n : ℕ) < min k relevant.length := by
              have := n.isLt
              simp only [List.length_take] at this
              omega
            have heq : ((ranked.take k).take (min k relevant.length)).get n =
                (ranked.take k).get ⟨n, lt_of_lt_of_le hn hmt⟩ := by
              simp [List.get_eq_getElem, List.getElem_take]
            rw [← hget, heq]
            exact hpret n hn
          have hfmlen : ((ranked.take k).take (min k relevant.length)).length
              = relevant.length := by
            rw [List.length_take]
            omega
          have hperm : ((ranked.take k).take (min k relevant.length)).Perm relevant :=
            (hfmnd.subperm hfmsub).perm_of_length_le (by omega)
          intro id hid hidrel
          have hidfm : id ∈ (ranked.take k).take (min k relevant.length) :=
            hperm.mem_iff.mpr hidrel
          have hsplit : (((ranked.take k).take (min k relevant.length)) ++
              ((ranked.take k).drop (min k relevant.length))).Nodup := by
            rw [List.take_append_drop]
            exact htnd
          have hdisj := (List.nodup_append.mp hsplit).2.2
          exact hdisj hidfm hid
        · have hdrop : (ranked.take k).drop (min k relevant.length) = [] := by
            apply List.drop_eq_nil_of_le
            rw [htlen]
            omega
          rw [hdrop]
          intro id hid
          simp at hid
      have hdceq : dcg relevant k ranked = sumW 0 (min k relevant.length) :=
        dcgAux_prefix_relevant relevant (ranked.take k) 0 (min k relevant.length)
          hmt hpret hsuf
      unfold ndcg_at_k
      rw [hidcg, hdceq]
      exact div_self (ne_of_gt (sumW_pos 0 hm1))

/-- C4 witness: `R = ["a", "b"]`, `S = ["a"]`, `k = 3` — the theorem's
hypotheses (positive `k`, non-empty relevant set, duplicate-free ranking)
hold and are discharged concretely. -/
theorem ndcg_at_k_bounds_witness :
    0 ≤ ndcg_at_k ["a", "b"] ["a"] 3 ∧ ndcg_at_k ["a", "b"] ["a"] 3 ≤ 1 ∧
    (ndcg_at_k ["a", "b"] ["a"] 3 = 1 ↔
      (min 3 (["a"] : List String).length ≤ (["a", "b"] : List String).length ∧
        ∀ j, j < min 3 (["a"] : List String).length →
          (["a", "b"] : List String).getD j "" ∈ (["a"] : List String))) :=
  ndcg_at_k_bounds ["a", "b"] ["a"] 3 (by omega) (by decide) (by decide)

end SavantLab
